import Mathlib

/-!
Shallow embedding of `.github/scripts/cli_scraper.py` (ava-labs/avalanche-cli):
a recursive CLI help-text introspection engine.  The script probes
`<tool> <chain...> --help`, parses description / flags / subcommands out of
the free-text output with regular expressions, memoizes built nodes per
command path, and renders the resulting tree to markdown.

The Python regular expressions are modelled character-exactly over `List Char`,
including greedy/lazy matching behaviour:
  * `re.sub(r'<(.*?)>', r'`\1`', text)`                     -> `replace_angle_brackets`
  * `re.search(r"(?s)^\s*(.*?)\n\s*Usage:", out)`           -> `extractDescription`
  * `re.search(r"(?sm)^Flags:\n(.*?)(?:\n\n|^\S|\Z)", out)` -> `flagsBlock`
  * the analogous `Global Flags:` block                     -> `globalFlagsBlock`
  * `re.findall(r"^\s+(-{1,2}[^\s,]+(?:,\s*-{1,2}[^\s,]+)*)\s+(.*)$", b, re.M)`
                                                            -> `scanFlagPairs`
  * the `Available Commands:`/`Commands:` block             -> `subcommandsBlock`
  * `re.findall(r"^\s+([^\s]+)\s+(.*)$", b, re.M)`          -> `scanSubPairs`

The external subprocess (`subprocess.run([...,"--help"], timeout=10)`) is
modelled as an injected function `probe : List String → Option String`
(`none` = timeout / launch failure, `some` = captured combined output).
All definitions are structurally recursive so concrete runs reduce by `rfl`.
-/

namespace CliScraper

/-- Python `\s` / `str.strip` whitespace over ASCII: space, tab, newline,
carriage return, vertical tab, form feed. -/
def isWs (c : Char) : Bool :=
  c = ' ' || c = '\t' || c = '\n' || c = '\r' || c = '\x0b' || c = '\x0c'

/-- Python `\w` over ASCII: letter, digit or underscore. -/
def isWordChar (c : Char) : Bool :=
  c.isAlpha || c.isDigit || c = '_'

/-- Python `str.strip()` on a character list. -/
def pstripL (cs : List Char) : List Char :=
  ((cs.dropWhile isWs).reverse.dropWhile isWs).reverse

/-- Python `str.strip()`. -/
def pstrip (s : String) : String := (pstripL s.data).asString

/-- State machine for `re.sub(r'<(.*?)>', r'`\1`', text)`.
While no `<` is pending, characters pass through; a `<` opens a pending
segment; a `>` closes it (emitting the segment wrapped in backticks); a
newline aborts it (Python `.` does not match a newline, and no `>` can close
any bracket opened before the newline), re-emitting the pending text
literally. -/
def rabAux : List Char → Option (List Char) → List Char
  | [], none => []
  | [], some acc => '<' :: acc.reverse
  | c :: rest, none =>
    if c = '<' then rabAux rest (some [])
    else c :: rabAux rest none
  | c :: rest, some acc =>
    if c = '>' then '`' :: (acc.reverse ++ '`' :: rabAux rest none)
    else if c = '\n' then '<' :: (acc.reverse ++ '\n' :: rabAux rest none)
    else rabAux rest (some (c :: acc))

/-- `replace_angle_brackets` from the source: rewrite each `<x>` to a
backtick-quoted `x`. -/
def replace_angle_brackets (s : String) : String := (rabAux s.data none).asString

/-- Python `sep.join(parts)`. -/
def joinSep (sep : String) : List String → String
  | [] => ""
  | [x] => x
  | x :: y :: rest => x ++ sep ++ joinSep sep (y :: rest)

/-- The sanitization step of anchor derivation: lowercase, then keep only
word characters and `-`. -/
def sanitizeL (cs : List Char) : List Char :=
  (cs.map Char.toLower).filter (fun c => isWordChar c || c = '-')

/-- `generate_anchor_id` from the source: join the tool name and the command
chain with `-`, lowercase, and strip every character that is not a word
character or `-`. -/
def generate_anchor_id (cli_tool : String) (command_chain : List String) : String :=
  let anchor_str := joinSep "-" (cli_tool :: command_chain)
  (sanitizeL anchor_str.data).asString

/-- Does a literal pattern start here?  On success return the remainder. -/
def stripPre (pat : String) (cs : List Char) : Option (List Char) :=
  if pat.data.isPrefixOf cs then some (cs.drop pat.length) else none

/-- Find the first line-start occurrence of a literal header (regex `^hdr`
with `re.M`); return the text after it. -/
def findHeaderAux (header : String) : List Char → Bool → Option (List Char)
  | [], _ => none
  | c :: rest, atLS =>
    if atLS then
      match stripPre header (c :: rest) with
      | some r => some r
      | none => findHeaderAux header rest (c = '\n')
    else findHeaderAux header rest (c = '\n')

/-- The lazy capture `(.*?)(?:\n\n|^\S|\Z)` with `(?sm)`: take characters
until the first blank line, line-start non-whitespace character, or end of
text. -/
def lazyCapture : List Char → Bool → List Char
  | [], _ => []
  | '\n' :: '\n' :: _, _ => []
  | c :: rest, atLS =>
    if atLS && !isWs c then []
    else c :: lazyCapture rest (c = '\n')

/-- The `Flags:` block of a help text, when present. -/
def flagsBlock (s : String) : Option (List Char) :=
  (findHeaderAux "Flags:\n" s.data true).map (fun r => lazyCapture r true)

/-- The `Global Flags:` block of a help text, when present. -/
def globalFlagsBlock (s : String) : Option (List Char) :=
  (findHeaderAux "Global Flags:\n" s.data true).map (fun r => lazyCapture r true)

/-- Match one of the subcommand-block headers
(`^Available Commands?:\n|^Commands?:\n`) at this position. -/
def subHeaderHere (cs : List Char) : Option (List Char) :=
  match stripPre "Available Commands:\n" cs with
  | some r => some r
  | none =>
    match stripPre "Available Command:\n" cs with
    | some r => some r
    | none =>
      match stripPre "Commands:\n" cs with
      | some r => some r
      | none => stripPre "Command:\n" cs

/-- Find the first line-start subcommand-block header. -/
def findSubHeaderAux : List Char → Bool → Option (List Char)
  | [], _ => none
  | c :: rest, atLS =>
    if atLS then
      match subHeaderHere (c :: rest) with
      | some r => some r
      | none => findSubHeaderAux rest (c = '\n')
    else findSubHeaderAux rest (c = '\n')

/-- The `Available Commands:`/`Commands:` block of a help text, when present. -/
def subcommandsBlock (s : String) : Option (List Char) :=
  (findSubHeaderAux s.data true).map (fun r => lazyCapture r true)

/-- `\s*Usage:` — after skipping whitespace (which may span lines), does
`Usage:` start here? -/
def usageAt (cs : List Char) : Bool :=
  "Usage:".data.isPrefixOf (cs.dropWhile isWs)

/-- Scan for the first newline that is followed by `\s*Usage:`; return the
text before it. -/
def descScan : List Char → Option (List Char)
  | [] => none
  | c :: rest =>
    if c = '\n' && usageAt rest then some []
    else (descScan rest).map (fun l => c :: l)

/-- The description extraction
`re.search(r"(?s)^\s*(.*?)\n\s*Usage:", output)` followed by `.strip()` and
`replace_angle_brackets`: greedy `^\s*` first consumes the maximal
whitespace prefix, then the lazy group runs to the first newline followed by
`\s*Usage:`.  (When every such newline lies inside the whitespace prefix the
group is empty and stripping yields `""`, which coincides with the
no-match case, so both are folded into `""`.) -/
def extractDescription (s : String) : String :=
  match descScan (s.data.dropWhile isWs) with
  | some pre => replace_angle_brackets (pstripL pre).asString
  | none => ""

/-- Drop the rest of the current line and its terminating newline. -/
def skipLine (cs : List Char) : List Char :=
  (cs.dropWhile (fun c => c ≠ '\n')).drop 1

/-- One line-anchored match of `^\s+([^\s]+)\s+(.*)$` (re.M): indentation,
a whitespace-free token, at least one whitespace character (possibly
spanning a newline), then the rest of that line.  Returns the two groups
and the remaining text (starting at the `$` position). -/
def subLineMatch (cs : List Char) : Option ((String × String) × List Char) :=
  if (cs.takeWhile isWs).isEmpty then none
  else
    if ((cs.dropWhile isWs).takeWhile (fun c => !isWs c)).isEmpty then none
    else
      if (((cs.dropWhile isWs).dropWhile (fun c => !isWs c)).takeWhile isWs).isEmpty then none
      else
        some ((((cs.dropWhile isWs).takeWhile (fun c => !isWs c)).asString,
          ((((cs.dropWhile isWs).dropWhile (fun c => !isWs c)).dropWhile isWs).takeWhile
            (fun c => c ≠ '\n')).asString),
          (((cs.dropWhile isWs).dropWhile (fun c => !isWs c)).dropWhile isWs).dropWhile
            (fun c => c ≠ '\n'))

/-- `re.findall` driver: only line starts can begin a match (the pattern is
anchored with `^`), and scanning resumes after each match.  Fueled by the
input length so the definition is structurally recursive. -/
def scanSubPairsF : Nat → List Char → List (String × String)
  | 0, _ => []
  | _, [] => []
  | fuel + 1, cs =>
    match subLineMatch cs with
    | some (pr, rest) => pr :: scanSubPairsF fuel (skipLine rest)
    | none => scanSubPairsF fuel (skipLine cs)

/-- `re.findall(r"^\s+([^\s]+)\s+(.*)$", block, re.M)`. -/
def scanSubPairs (cs : List Char) : List (String × String) :=
  scanSubPairsF (cs.length + 1) cs

/-- A character allowed inside a flag token: `[^\s,]`. -/
def isFlagTokChar (c : Char) : Bool := !isWs c && c ≠ ','

/-- `-{1,2}[^\s,]+` with its backtracking: prefer two dashes, but when no
token character follows them fall back to one dash with the second dash as
the first token character.  Returns the matched text and the remainder. -/
def dashToken : List Char → Option (List Char × List Char)
  | '-' :: '-' :: r =>
    let body := r.takeWhile isFlagTokChar
    if body.isEmpty then
      let body1 := ('-' :: r).takeWhile isFlagTokChar
      if body1.isEmpty then none
      else some ('-' :: body1, ('-' :: r).dropWhile isFlagTokChar)
    else some ('-' :: '-' :: body, r.dropWhile isFlagTokChar)
  | '-' :: r =>
    let body := r.takeWhile isFlagTokChar
    if body.isEmpty then none
    else some ('-' :: body, r.dropWhile isFlagTokChar)
  | _ => none

/-- The greedy iteration `(?:,\s*-{1,2}[^\s,]+)*`: keep consuming
`, <ws> <dash token>` groups while they parse; the matched characters are
accumulated verbatim (the whitespace may include newlines). -/
def flagIterF : Nat → List Char → List Char → List Char × List Char
  | 0, acc, cs => (acc, cs)
  | fuel + 1, acc, cs =>
    match cs with
    | ',' :: r =>
      let ws := r.takeWhile isWs
      let r2 := r.dropWhile isWs
      match dashToken r2 with
      | some (tok, r3) => flagIterF fuel (acc ++ ',' :: ws ++ tok) r3
      | none => (acc, cs)
    | _ => (acc, cs)

/-- One line-anchored match of
`^\s+(-{1,2}[^\s,]+(?:,\s*-{1,2}[^\s,]+)*)\s+(.*)$` (re.M). -/
def flagLineMatch (cs : List Char) : Option ((String × String) × List Char) :=
  let ws1 := cs.takeWhile isWs
  if ws1.isEmpty then none
  else
    let r1 := cs.dropWhile isWs
    match dashToken r1 with
    | none => none
    | some (tok, r2) =>
      let it := flagIterF r2.length tok r2
      let grp := it.1
      let r3 := it.2
      if (r3.takeWhile isWs).isEmpty then none
      else
        let r4 := r3.dropWhile isWs
        let desc := r4.takeWhile (fun c => c ≠ '\n')
        let r5 := r4.dropWhile (fun c => c ≠ '\n')
        some ((grp.asString, desc.asString), r5)

/-- `re.findall` driver for the flag-line pattern. -/
def scanFlagPairsF : Nat → List Char → List (String × String)
  | 0, _ => []
  | _, [] => []
  | fuel + 1, cs =>
    match flagLineMatch cs with
    | some (pr, rest) => pr :: scanFlagPairsF fuel (skipLine rest)
    | none => scanFlagPairsF fuel (skipLine cs)

/-- `re.findall(r"^\s+(-{1,2}[^\s,]+(?:,\s*-{1,2}[^\s,]+)*)\s+(.*)$", b, re.M)`. -/
def scanFlagPairs (cs : List Char) : List (String × String) :=
  scanFlagPairsF (cs.length + 1) cs

/-- The per-flag normalization of the source: `f[0].strip()` and
`replace_angle_brackets(f[1].strip())`. -/
def cleanPair (p : String × String) : String × String :=
  (pstrip p.1, replace_angle_brackets (pstrip p.2))

/-- Flag extraction of `get_command_structure`: the `Flags:` block's matches
followed by the `Global Flags:` block's matches, each normalized. -/
def extractFlags (s : String) : List (String × String) :=
  ((match flagsBlock s with
    | some b => scanFlagPairs b
    | none => []) ++
   (match globalFlagsBlock s with
    | some b => scanFlagPairs b
    | none => [])).map cleanPair

/-- Raw `(name, one-line description)` pairs of the subcommand listing. -/
def subLines (s : String) : List (String × String) :=
  match subcommandsBlock s with
  | some b => scanSubPairs b
  | none => []

/-- Python string `<`: lexicographic comparison of the code-point
sequences. -/
def strLt (a b : String) : Prop := List.Lex (· < ·) a.data b.data

instance : DecidableRel strLt := fun a b => by
  unfold strLt; infer_instance

/-- Python tuple comparison on `(name, description)` pairs: lexicographic by
code points, name first (`a ≤ b` on strings is `¬ b < a`). -/
def pairLe (p q : String × String) : Prop :=
  strLt p.1 q.1 ∨ (p.1 = q.1 ∧ ¬ strLt q.2 p.2)

instance : DecidableRel pairLe := fun p q => by
  unfold pairLe; infer_instance

theorem strDataEq {a b : String} (h : a.data = b.data) : a = b := by
  cases a; cases b; exact congrArg String.mk h

theorem strLt_trichotomy (a b : String) : strLt a b ∨ a = b ∨ strLt b a := by
  rcases trichotomous (r := List.Lex ((· < ·) : Char → Char → Prop)) a.data b.data with
    h | h | h
  · exact Or.inl h
  · exact Or.inr (Or.inl (strDataEq h))
  · exact Or.inr (Or.inr h)

theorem strLt_asymm {a b : String} (h : strLt a b) : ¬ strLt b a :=
  asymm (r := List.Lex ((· < ·) : Char → Char → Prop)) h

theorem strLt_irrefl (a : String) : ¬ strLt a a :=
  irrefl (r := List.Lex ((· < ·) : Char → Char → Prop)) a.data

theorem strLt_trans {a b c : String} (h1 : strLt a b) (h2 : strLt b c) : strLt a c :=
  IsTrans.trans (r := List.Lex ((· < ·) : Char → Char → Prop)) _ _ _ h1 h2

instance : IsTotal (String × String) pairLe := by
  constructor
  intro p q
  rcases strLt_trichotomy p.1 q.1 with h | h | h
  · exact Or.inl (Or.inl h)
  · rcases strLt_trichotomy p.2 q.2 with h2 | h2 | h2
    · exact Or.inl (Or.inr ⟨h, strLt_asymm h2⟩)
    · exact Or.inl (Or.inr ⟨h, h2 ▸ strLt_irrefl p.2⟩)
    · exact Or.inr (Or.inr ⟨h.symm, strLt_asymm h2⟩)
  · exact Or.inr (Or.inl h)

instance : IsTrans (String × String) pairLe := by
  constructor
  intro p q r hpq hqr
  rcases hpq with h1 | ⟨e1, l1⟩
  · rcases hqr with h2 | ⟨e2, _⟩
    · exact Or.inl (strLt_trans h1 h2)
    · exact Or.inl (e2 ▸ h1)
  · rcases hqr with h2 | ⟨e2, l2⟩
    · exact Or.inl (e1 ▸ h2)
    · refine Or.inr ⟨e1.trans e2, fun hrp => ?_⟩
      rcases strLt_trichotomy p.2 q.2 with hl | hl | hl
      · rcases strLt_trichotomy q.2 r.2 with hm | hm | hm
        · exact strLt_asymm (strLt_trans hl hm) hrp
        · exact strLt_asymm (hm ▸ hl) hrp
        · exact l2 hm
      · exact l2 (hl ▸ hrp)
      · exact l1 hl

instance : IsAntisymm (String × String) pairLe := by
  constructor
  intro p q hpq hqp
  rcases hpq with h1 | ⟨e1, l1⟩
  · rcases hqp with h2 | ⟨e2, _⟩
    · exact absurd h2 (strLt_asymm h1)
    · exact absurd (e2 ▸ h1) (strLt_irrefl _)
  · rcases hqp with h2 | ⟨e2, l2⟩
    · exact absurd (e1 ▸ h2) (strLt_irrefl _)
    · refine Prod.ext e1 ?_
      rcases strLt_trichotomy p.2 q.2 with hl | hl | hl
      · exact absurd hl l2
      · exact hl
      · exact absurd hl l1

/-- Python `sorted(set(lines))`: deduplicate identical pairs, then sort by
the tuple order. -/
def sortedDedup (l : List (String × String)) : List (String × String) :=
  List.insertionSort pairLe l.dedup

/-- One node of the introspection tree: the Python dict
`\x7bdescription, flags, subcommands\x7d`, with the subcommand dict as an
insertion-ordered association list with unique keys. -/
inductive CommandNode where
  | mk (description : String) (flags : List (String × String))
       (subcommands : List (String × CommandNode))

def CommandNode.description : CommandNode → String
  | .mk d _ _ => d

def CommandNode.flags : CommandNode → List (String × String)
  | .mk _ f _ => f

def CommandNode.subcommands : CommandNode → List (String × CommandNode)
  | .mk _ _ s => s

/-- Look a key up in an association list (Python dict read). -/
def alookup {α : Type} : List (String × α) → String → Option α
  | [], _ => none
  | (k, v) :: rest, key => if k = key then some v else alookup rest key

/-- Python dict assignment `d[key] = v`: replace in place when the key is
present, else append. -/
def aset {α : Type} : List (String × α) → String → α → List (String × α)
  | [], key, v => [(key, v)]
  | (k, w) :: rest, key, v =>
    if k = key then (k, v) :: rest else (k, w) :: aset rest key v

/-- `command_key = ' '.join([cli_tool] + command_chain)`. -/
def commandKey (tool : String) (chain : List String) : String :=
  joinSep " " (tool :: chain)

/-- The per-build state: the `processed_commands` memoization dict, plus an
instrumentation log of every Prober invocation (the `current_command` of
each `subprocess.run` call, in order). -/
structure BuildSt where
  memo : List (String × CommandNode)
  log : List (List String)

/-- The stub node built from a parent listing's one-line description. -/
def stubNode (desc : String) : CommandNode := .mk desc [] []

/-- The loop `for subcmd, sub_desc in sorted(set(subcommand_lines))` of
`get_command_structure`.  `child name st` is the recursive call for
`command_chain + [name]`.  When the child's description comes back empty it
is backfilled from the listing; since the Python code mutates the child dict
in place and that dict is also the memo entry, the memo entry is updated
alongside. -/
def processSubs (child : String → BuildSt → Option CommandNode × BuildSt)
    (tool : String) (chain : List String) :
    List (String × String) → List (String × CommandNode) × BuildSt →
    List (String × CommandNode) × BuildSt
  | [], acc => acc
  | (name, desc) :: rest, (subs, st) =>
    let descClean := replace_angle_brackets (pstrip desc)
    match child name st with
    | (some sub, st') =>
      if sub.description = "" then
        let sub' := CommandNode.mk descClean sub.flags sub.subcommands
        let st'' : BuildSt :=
          { st' with memo := aset st'.memo (commandKey tool (chain ++ [name])) sub' }
        processSubs child tool chain rest (aset subs name sub', st'')
      else
        processSubs child tool chain rest (aset subs name sub, st')
    | (none, st') =>
      processSubs child tool chain rest (aset subs name (stubNode descClean), st')

/-- `get_command_structure` when `current_depth > max_depth` (fuel 0): the
memo is still consulted first, then the call returns `None`. -/
def getCSBase (tool : String) (chain : List String) (st : BuildSt) :
    Option CommandNode × BuildSt :=
  match alookup st.memo (commandKey tool chain) with
  | some node => (some node, st)
  | none => (none, st)

/-- One unfolding of `get_command_structure` with fuel left: memo check,
probe (`subprocess.run(current_command + ["--help"], ...)`, logged), failure
and empty-output checks, extraction, recursion over the sorted deduplicated
subcommand listing, then memoization of the assembled node. -/
def getCSStep (probe : List String → Option String) (tool : String)
    (child : List String → BuildSt → Option CommandNode × BuildSt)
    (chain : List String) (st : BuildSt) : Option CommandNode × BuildSt :=
  match alookup st.memo (commandKey tool chain) with
  | some node => (some node, st)
  | none =>
    let st1 : BuildSt := { st with log := st.log ++ [tool :: chain] }
    match probe (tool :: chain ++ ["--help"]) with
    | none => (none, st1)
    | some output =>
      if pstrip output = "" then (none, st1)
      else
        let res := processSubs (fun name stx => child (chain ++ [name]) stx)
          tool chain (sortedDedup (subLines output)) ([], st1)
        let node := CommandNode.mk (extractDescription output) (extractFlags output) res.1
        (some node, { res.2 with memo := aset res.2.memo (commandKey tool chain) node })

/-- `get_command_structure`, fueled: fuel `max_depth - current_depth + 1`
(so fuel 0 is exactly `current_depth > max_depth`).  Defined through
`Nat.rec` so that it is structurally recursive and reduces definitionally. -/
def get_command_structure (probe : List String → Option String) (tool : String) :
    Nat → List String → BuildSt → Option CommandNode × BuildSt :=
  fun fuel =>
    Nat.rec (motive := fun _ => List String → BuildSt → Option CommandNode × BuildSt)
      (getCSBase tool)
      (fun _ child => getCSStep probe tool child)
      fuel

/-- One whole build invocation (`get_command_structure(cli_tool,
max_depth=max_depth)`): empty chain, fresh memo table, fresh log. -/
def build (probe : List String → Option String) (tool : String) (maxDepth : Nat) :
    Option CommandNode × BuildSt :=
  get_command_structure probe tool (maxDepth + 1) [] ⟨[], []⟩

theorem getCS_zero (probe : List String → Option String) (tool : String) :
    get_command_structure probe tool 0 = getCSBase tool := rfl

theorem getCS_succ (probe : List String → Option String) (tool : String) (fuel : Nat) :
    get_command_structure probe tool (fuel + 1) =
      getCSStep probe tool (get_command_structure probe tool fuel) := rfl

/-! ## The renderer (`generate_markdown` / `write_section`) -/

/-- Order on subcommand entries by key, mirroring
`for subcmd in sorted(subcommands.keys())` (keys are unique). -/
def byKeyLe (p q : String × CommandNode) : Prop := p.1 ≤ q.1

instance : DecidableRel byKeyLe := fun p q => by
  unfold byKeyLe; infer_instance

/-- Python `str.ljust(n)`. -/
def ljust (s : String) (n : Nat) : String :=
  s ++ (List.replicate (n - s.length) ' ').asString

/-- `re.match(r'^(\w+)\s+(.*)', description)`: split a leading bare word off
a flag description as its type; on no match return `("", description)`. -/
def parseTypeDesc (d : String) : String × String :=
  let cs := d.data
  let w := cs.takeWhile isWordChar
  if w.isEmpty then ("", d)
  else
    let r := cs.dropWhile isWordChar
    if (r.takeWhile isWs).isEmpty then ("", d)
    else
      let r2 := r.dropWhile isWs
      (w.asString, (r2.takeWhile (fun c => c ≠ '\n')).asString)

/-- The fenced flags table of `write_section`, aligned on the longest
flag-name column. -/
def flagsTable (flags : List (String × String)) : String :=
  let flag_lines := flags.map (fun fd =>
    let td := parseTypeDesc fd.2
    (if td.1 = "" then fd.1 else fd.1 ++ " " ++ td.1, td.2))
  let max_len := (flag_lines.map (fun f => f.1.length)).foldl max 0
  "**Flags:**\n\n" ++ "```bash\n" ++
  String.join (flag_lines.map (fun f => ljust f.1 max_len ++ "    " ++ f.2 ++ "\n")) ++
  "```\n\n"

/-- `<a id="{anchor}"></a>\n`. -/
def anchorTag (tool : String) (chain : List String) : String :=
  "<a id=\"" ++ generate_anchor_id tool chain ++ "\"></a>\n"

/-- The heading line: `min(1 + len(command_chain), 6)` hash marks, then
`{cli_tool} {chain[0]}` for a top-level command and `' '.join(chain[1:])`
deeper down. -/
def headingFor (tool : String) (chain : List String) : String :=
  let text := match chain with
    | [x] => tool ++ " " ++ x
    | _ => joinSep " " chain.tail
  (List.replicate (min (1 + chain.length) 6) '#').asString ++ " " ++ text ++ "\n\n"

/-- The fenced usage example. -/
def usageFor (tool : String) (chain : List String) : String :=
  "**Usage:**\n" ++ "```bash\n" ++ tool ++ " " ++ joinSep " " chain ++
  " [subcommand] [flags]\n" ++ "```\n\n"

/-- The bulleted, alphabetically sorted subcommand index with anchors. -/
def subIndexFor (tool : String) (chain : List String)
    (sortedSubs : List (String × CommandNode)) : String :=
  if sortedSubs.isEmpty then ""
  else
    "**Subcommands:**\n\n" ++
    String.join (sortedSubs.map (fun p =>
      "- [`" ++ p.1 ++ "`](#" ++ generate_anchor_id tool (chain ++ [p.1]) ++ "): " ++
      p.2.description ++ "\n")) ++ "\n"

/-- `write_section`: at the root (empty chain) emit only the recursively
rendered subtree; otherwise emit anchor, heading, description paragraph,
usage, subcommand index and flags table, then recurse into the subcommands
in sorted key order. -/
def writeSection (tool : String) : CommandNode → List String → String
  | .mk d f subs, chain =>
    let sortedSubs := List.insertionSort byKeyLe subs
    let children := String.join (sortedSubs.attach.map
      (fun p => writeSection tool p.1.2 (chain ++ [p.1.1])))
    if chain.isEmpty then children
    else
      anchorTag tool chain ++ headingFor tool chain ++
      (if d = "" then "" else d ++ "\n\n") ++
      usageFor tool chain ++
      subIndexFor tool chain sortedSubs ++
      (if f.isEmpty then "" else flagsTable f) ++
      children
termination_by node _ => sizeOf node
decreasing_by
  have h1 : p.1 ∈ List.insertionSort byKeyLe subs := p.2
  have h2 : p.1 ∈ subs := (List.mem_insertionSort byKeyLe).mp h1
  have h3 : sizeOf p.1 < sizeOf subs := List.sizeOf_lt_of_mem h2
  have h4 : sizeOf p.1.2 < sizeOf p.1 := by
    rcases p.1 with ⟨a, b⟩; simp
  simp only [CommandNode.mk.sizeOf_spec]
  omega

/-- `generate_markdown`: the whole document is the root section (the file
handle is immaterial to the text produced). -/
def generate_markdown (cli_structure : CommandNode) (cli_tool : String) : String :=
  writeSection cli_tool cli_structure []

/-! ## Fixtures -/

/-- The spec's end-to-end fixture: root help text of the `sample` tool. -/
def sampleRootHelp : String :=
  "A sample CLI.\nUsage: sample [command]\nAvailable Commands:\n  create   Create a thing\nFlags:\n  -h, --help   bool   show help\n"

/-- The spec's end-to-end fixture: `sample create --help` output. -/
def sampleCreateHelp : String := "Usage: sample create\n"

/-- Prober stub for the spec's end-to-end fixture. -/
def sampleProbe : List String → Option String := fun args =>
  if args = ["sample", "--help"] then some sampleRootHelp
  else if args = ["sample", "create", "--help"] then some sampleCreateHelp
  else none

/-- A root help text whose listing names `sub` twice with differing one-line
descriptions; the probe for `t sub` itself fails (e.g. times out). -/
def dupListingProbe : List String → Option String := fun args =>
  if args = ["t", "--help"] then
    some "Usage: t\n\nCommands:\n  sub  A\n  sub  B\n\nEnd\n"
  else none

/-- A root help text whose commands block consists of the single line
`  solo` — a name with no one-line description — followed by a newline. -/
def soloProbe : List String → Option String := fun args =>
  if args = ["t", "--help"] then some "Usage: t\n\nCommands:\n  solo\nEnd\n"
  else if args = ["t", "solo", "--help"] then some "Usage: t solo\n"
  else none

/-- A root help text with sibling commands `A!` and `a?`, whose anchors
collide after lowercasing and stripping. -/
def clashProbe : List String → Option String := fun args =>
  if args = ["t", "--help"] then some "Usage: t\nCommands:\n  A!  x\n  a?  y\n"
  else none

/-! ## C3 — the end-to-end fixture -/

/-- C3, counterexample.  On the spec's two-command fixture the built root
node's flag description is `"bool   show help"` — the whitespace between the
type word and the text is preserved from the help line — not the claimed
`"bool show help"`. -/
theorem c3_counterexample :
    (build sampleProbe "sample" 10).1 =
      some (CommandNode.mk "A sample CLI." [("-h, --help", "bool   show help")]
        [("create", CommandNode.mk "Create a thing" [] [])]) ∧
    [("-h, --help", "bool   show help")] ≠
      ([("-h, --help", "bool show help")] : List (String × String)) :=
  ⟨rfl, by decide⟩

/-- C3, amended.  On the spec's two-command fixture, `build` produces a root
node with description `"A sample CLI."`, exactly one flag
`("-h, --help", "bool   show help")` (interior whitespace preserved), and one
subcommand `create` whose node has its empty description backfilled to
`"Create a thing"`, with empty flags and empty subcommands. -/
theorem c3_amended :
    (build sampleProbe "sample" 10).1 =
      some (CommandNode.mk "A sample CLI." [("-h, --help", "bool   show help")]
        [("create", CommandNode.mk "Create a thing" [] [])]) := rfl

/-! ## C1 — memoization / at-most-once probing -/

/-- C1, counterexample.  When one listing names the same subcommand twice
with differing descriptions and the subcommand's own probe fails, the failed
path is never memoized, so the second listing entry probes it again: the
probe log of one build contains the path `t sub` twice. -/
theorem c1_counterexample :
    (build dupListingProbe "t" 10).2.log = [["t"], ["t", "sub"], ["t", "sub"]] ∧
    ((build dupListingProbe "t" 10).2.log).count ["t", "sub"] = 2 :=
  ⟨rfl, rfl⟩

/-! ## C10 — name-only listing lines -/

/-- C10, counterexample.  A commands-block line holding only indentation and
a single token, when followed by a newline kept inside the captured block,
IS recognized: `\s+` of the line pattern matches the newline, the
description group matches empty, and the builder both records the
subcommand and probes it. -/
theorem c10_counterexample :
    subLines "Usage: t\n\nCommands:\n  solo\nEnd\n" = [("solo", "")] ∧
    (build soloProbe "t" 10).1 =
      some (CommandNode.mk "" [] [("solo", CommandNode.mk "" [] [])]) ∧
    (build soloProbe "t" 10).2.log = [["t"], ["t", "solo"]] :=
  ⟨rfl, rfl, rfl⟩

/-! ## C8 — anchor identifiers -/

/-- C8, counterexample.  Anchor derivation is lossy: the distinct sibling
commands `A!` and `a?` of one built tree derive the same anchor `t-a`. -/
theorem c8_counterexample :
    (build clashProbe "t" 0).1 =
      some (CommandNode.mk "" []
        [("A!", CommandNode.mk "x" [] []), ("a?", CommandNode.mk "y" [] [])]) ∧
    ("A!" : String) ≠ "a?" ∧
    generate_anchor_id "t" ["A!"] = generate_anchor_id "t" ["a?"] :=
  ⟨rfl, by decide, rfl⟩

/-! ## C4 — local flags followed by global flags -/

/-- C4.  Whenever a help text has both a `Flags:` block and a
`Global Flags:` block, the extracted flag sequence is exactly the flag-line
matches of the local block in source order followed by those of the global
block in source order (each normalized by `strip`/angle-bracket rewriting);
each block is cut off by the first blank line, line-start non-whitespace
character, or end of text (`lazyCapture`). -/
theorem c4_flags_concat (s : String) (b1 b2 : List Char)
    (h1 : flagsBlock s = some b1) (h2 : globalFlagsBlock s = some b2) :
    extractFlags s = (scanFlagPairs b1).map cleanPair ++ (scanFlagPairs b2).map cleanPair := by
  unfold extractFlags
  rw [h1, h2, List.map_append]

theorem c4_flags_concat_witness :
    flagsBlock "Flags:\n  -a  b\n\nGlobal Flags:\n  -c  d\n" = some "  -a  b".data ∧
    globalFlagsBlock "Flags:\n  -a  b\n\nGlobal Flags:\n  -c  d\n" = some "  -c  d\n".data ∧
    extractFlags "Flags:\n  -a  b\n\nGlobal Flags:\n  -c  d\n" =
      (scanFlagPairs "  -a  b".data).map cleanPair ++
      (scanFlagPairs "  -c  d\n".data).map cleanPair :=
  ⟨rfl, rfl, c4_flags_concat _ _ _ rfl rfl⟩

/-! ## C2 — failure propagation policy -/

/-- C2.  (i) If the root probe fails — no output (timeout / launch error) or
empty-after-strip output — the whole build returns `none`, no partial tree.
(ii) Every non-root probe failure is absorbed at the point of occurrence:
when the recursive call for a listed subcommand returns `none`, the loop
attaches a stub node carrying only that listing's one-line description and
continues. -/
theorem c2_failure_policy :
    (∀ (probe : List String → Option String) (tool : String) (maxDepth : Nat),
      (probe [tool, "--help"] = none ∨
        ∃ o, probe [tool, "--help"] = some o ∧ pstrip o = "") →
      (build probe tool maxDepth).1 = none) ∧
    (∀ (child : String → BuildSt → Option CommandNode × BuildSt) (tool : String)
        (chain : List String) (name desc : String) (rest : List (String × String))
        (subs : List (String × CommandNode)) (st st₂ : BuildSt),
      child name st = (none, st₂) →
      processSubs child tool chain ((name, desc) :: rest) (subs, st) =
        processSubs child tool chain rest
          (aset subs name (stubNode (replace_angle_brackets (pstrip desc))), st₂)) := by
  constructor
  · intro probe tool maxDepth h
    show (get_command_structure probe tool (maxDepth + 1) [] ⟨[], []⟩).1 = none
    rw [getCS_succ]
    rcases h with h | ⟨o, ho, he⟩
    · simp [getCSStep, alookup, h]
    · simp [getCSStep, alookup, ho, he]
  · intro child tool chain name desc rest subs st st₂ h
    simp only [processSubs]
    rw [h]

/-! ## C5 — depth cutoff -/

/-- The subcommand map assembled when every recursive call yields nothing:
one stub node per listed `(name, description)` pair, in sorted order,
later duplicates overwriting earlier ones (dict assignment). -/
def stubsOf (o : String) : List (String × CommandNode) :=
  (sortedDedup (subLines o)).foldl
    (fun s nd => aset s nd.1 (stubNode (replace_angle_brackets (pstrip nd.2)))) []

theorem aset_forall {α : Type} (P : α → Prop) :
    ∀ (l : List (String × α)) (k : String) (v : α),
      (∀ p ∈ l, P p.2) → P v → ∀ p ∈ aset l k v, P p.2 := by
  intro l
  induction l with
  | nil =>
    intro k v _ hv p hp
    simp only [aset, List.mem_singleton] at hp
    subst hp; exact hv
  | cons hd tl ih =>
    intro k v h hv p hp
    obtain ⟨k', w⟩ := hd
    simp only [aset] at hp
    by_cases hk : k' = k
    · rw [if_pos hk] at hp
      rcases List.mem_cons.mp hp with rfl | hp
      · exact hv
      · exact h p (List.mem_cons_of_mem _ hp)
    · rw [if_neg hk] at hp
      rcases List.mem_cons.mp hp with rfl | hp
      · exact h _ (List.mem_cons_self _ _)
      · exact ih k v (fun q hq => h q (List.mem_cons_of_mem _ hq)) hv p hp

theorem foldl_aset_forall (P : CommandNode → Prop)
    (f : String × String → CommandNode) (hf : ∀ nd, P (f nd)) :
    ∀ (l : List (String × String)) (subs : List (String × CommandNode)),
      (∀ p ∈ subs, P p.2) →
      ∀ p ∈ l.foldl (fun s nd => aset s nd.1 (f nd)) subs, P p.2 := by
  intro l
  induction l with
  | nil => intro subs h; simpa using h
  | cons hd tl ih =>
    intro subs h
    exact ih _ (aset_forall P _ _ _ h (hf hd))

theorem processSubs_stub_loop (tool : String) (chain : List String)
    (child : String → BuildSt → Option CommandNode × BuildSt)
    (hchild : ∀ name log, child name ⟨[], log⟩ = (none, ⟨[], log⟩)) :
    ∀ (l : List (String × String)) (subs : List (String × CommandNode))
      (log : List (List String)),
      processSubs child tool chain l (subs, ⟨[], log⟩) =
        (l.foldl (fun s nd => aset s nd.1 (stubNode (replace_angle_brackets (pstrip nd.2)))) subs,
          ⟨[], log⟩) := by
  intro l
  induction l with
  | nil => intro subs log; rfl
  | cons hd tl ih =>
    intro subs log
    obtain ⟨name, desc⟩ := hd
    simp only [processSubs]
    rw [hchild]
    exact ih _ _

/-- C5.  With `maxDepth = 0` the root node is fully built — description and
flags extracted from the root help text, subcommands populated from the
listing — but every child is a stub (empty flags, empty subcommands)
carrying only the listing's one-line description, and no child path is ever
probed (the probe log is exactly the root path). -/
theorem c5_depth_cutoff (probe : List String → Option String) (tool o : String)
    (h1 : probe [tool, "--help"] = some o) (h2 : pstrip o ≠ "") :
    (build probe tool 0).1 =
      some (CommandNode.mk (extractDescription o) (extractFlags o) (stubsOf o)) ∧
    (build probe tool 0).2.log = [[tool]] ∧
    ∀ p ∈ stubsOf o, CommandNode.flags p.2 = [] ∧ CommandNode.subcommands p.2 = [] := by
  have hbuild : build probe tool 0 =
      (some (CommandNode.mk (extractDescription o) (extractFlags o) (stubsOf o)),
        ⟨aset [] (commandKey tool []) (CommandNode.mk (extractDescription o)
          (extractFlags o) (stubsOf o)), [[tool]]⟩) := by
    show getCSStep probe tool (get_command_structure probe tool 0) [] ⟨[], []⟩ = _
    unfold getCSStep
    show (match probe [tool, "--help"] with
      | none => _
      | some output => _) = _
    rw [h1]
    simp only [if_neg h2]
    rw [processSubs_stub_loop tool []
      (fun name stx => get_command_structure probe tool 0 ([] ++ [name]) stx)
      (fun name log => rfl)]
    rfl
  refine ⟨by rw [hbuild], by rw [hbuild], ?_⟩
  exact foldl_aset_forall
    (fun n => CommandNode.flags n = [] ∧ CommandNode.subcommands n = [])
    (fun nd => stubNode (replace_angle_brackets (pstrip nd.2)))
    (fun nd => ⟨rfl, rfl⟩) (sortedDedup (subLines o)) [] (by simp)

theorem c5_depth_cutoff_witness :
    (build sampleProbe "sample" 0).1 =
      some (CommandNode.mk (extractDescription sampleRootHelp)
        (extractFlags sampleRootHelp) (stubsOf sampleRootHelp)) ∧
    (build sampleProbe "sample" 0).2.log = [["sample"]] ∧
    ∀ p ∈ stubsOf sampleRootHelp,
      CommandNode.flags p.2 = [] ∧ CommandNode.subcommands p.2 = [] :=
  c5_depth_cutoff sampleProbe "sample" sampleRootHelp rfl (by decide)

theorem c2_failure_policy_witness :
    (build (fun _ => none) "t" 3).1 = none ∧
    processSubs (fun _ st => (none, st)) "t" [] [("a", "<d>")] ([], ⟨[], []⟩) =
      processSubs (fun _ st => (none, st)) "t" [] []
        (aset [] "a" (stubNode (replace_angle_brackets (pstrip "<d>"))), ⟨[], []⟩) :=
  ⟨c2_failure_policy.1 (fun _ => none) "t" 3 (Or.inl rfl),
   c2_failure_policy.2 (fun _ st => (none, st)) "t" [] "a" "<d>" [] [] ⟨[], []⟩ ⟨[], []⟩ rfl⟩

/-! ## C8 amended — sibling anchors -/

theorem asStringInj {a b : List Char} (h : a.asString = b.asString) : a = b :=
  congrArg String.data h

theorem sanitizeL_append (a b : List Char) :
    sanitizeL (a ++ b) = sanitizeL a ++ sanitizeL b := by
  simp [sanitizeL, List.filter_append]

theorem joinSep_snoc (sep x n : String) :
    ∀ l, joinSep sep (x :: (l ++ [n])) = joinSep sep (x :: l) ++ sep ++ n := by
  intro l
  induction l generalizing x with
  | nil => rfl
  | cons y tl ih =>
    show x ++ sep ++ joinSep sep (y :: (tl ++ [n])) =
      x ++ sep ++ joinSep sep (y :: tl) ++ sep ++ n
    rw [ih y]
    simp [String.append_assoc]

/-- C8, amended.  The anchor of a command path is the sanitized `-`-join of
tool name and path tokens; two sibling commands derive distinct anchors
whenever their names remain distinct after lowercasing and stripping of
non-word, non-`-` characters (the sanitization is lossy, so this is the
exact condition — `c8_counterexample` shows distinct siblings colliding). -/
theorem c8_amended (tool : String) (chain : List String) (n1 n2 : String)
    (h : sanitizeL n1.data ≠ sanitizeL n2.data) :
    generate_anchor_id tool (chain ++ [n1]) ≠ generate_anchor_id tool (chain ++ [n2]) := by
  have key : ∀ n : String, generate_anchor_id tool (chain ++ [n]) =
      (sanitizeL (joinSep "-" (tool :: chain)).data ++ ['-'] ++ sanitizeL n.data).asString := by
    intro n
    show (sanitizeL (joinSep "-" (tool :: (chain ++ [n]))).data).asString = _
    rw [joinSep_snoc "-" tool n chain]
    have hdata : (joinSep "-" (tool :: chain) ++ "-" ++ n).data =
        (joinSep "-" (tool :: chain)).data ++ ['-'] ++ n.data := by
      simp [String.data_append]
    rw [hdata, sanitizeL_append, sanitizeL_append]
    rfl
  intro he
  rw [key n1, key n2] at he
  have hdat := asStringInj he
  exact h (List.append_cancel_left hdat)

theorem c8_amended_witness :
    sanitizeL "a".data ≠ sanitizeL "b".data ∧
    generate_anchor_id "t" (["x"] ++ ["a"]) ≠ generate_anchor_id "t" (["x"] ++ ["b"]) :=
  ⟨by decide, c8_amended "t" ["x"] "a" "b" (by decide)⟩

/-! ## C7 — angle-bracket placeholders -/

/-- A text with no angle brackets at all. -/
def bracketFree (s : String) : Prop := ∀ c ∈ s.data, c ≠ '<' ∧ c ≠ '>'

instance : DecidablePred bracketFree := fun s => by
  unfold bracketFree; infer_instance

/-- A placeholder name: no brackets, no newline. -/
def nameOk (s : String) : Prop := ∀ c ∈ s.data, c ≠ '<' ∧ c ≠ '>' ∧ c ≠ '\n'

instance : DecidablePred nameOk := fun s => by
  unfold nameOk; infer_instance

/-- A text assembled from plain segments and `<name>` placeholders. -/
def assemble : List (String × String) → String → String
  | [], last => last
  | (pl, nm) :: rest, last => pl ++ "<" ++ nm ++ ">" ++ assemble rest last

/-- The same text with each placeholder rewritten to backtick form. -/
def assembleTicked : List (String × String) → String → String
  | [], last => last
  | (pl, nm) :: rest, last => pl ++ "`" ++ nm ++ "`" ++ assembleTicked rest last

theorem rabAux_plain (cs : List Char) (h : ∀ c ∈ cs, c ≠ '<') :
    ∀ rest, rabAux (cs ++ rest) none = cs ++ rabAux rest none := by
  induction cs with
  | nil => intro rest; rfl
  | cons c tl ih =>
    intro rest
    have hc : c ≠ '<' := h c (List.mem_cons_self _ _)
    simp only [List.cons_append, rabAux, if_neg hc, List.append_eq]
    rw [ih (fun x hx => h x (List.mem_cons_of_mem _ hx)) rest]

theorem rabAux_pending (nm : List Char) (h : ∀ c ∈ nm, c ≠ '>' ∧ c ≠ '\n') :
    ∀ acc rest, rabAux (nm ++ ('>' :: rest)) (some acc) =
      '`' :: ((acc.reverse ++ nm) ++ ('`' :: rabAux rest none)) := by
  induction nm with
  | nil => intro acc rest; simp [rabAux]
  | cons c tl ih =>
    intro acc rest
    have hc := h c (List.mem_cons_self _ _)
    simp only [List.cons_append, rabAux, if_neg hc.1, if_neg hc.2, List.append_eq]
    rw [ih (fun x hx => h x (List.mem_cons_of_mem _ hx)) (c :: acc) rest]
    simp [List.append_assoc]

theorem rab_once (pl nm : List Char) (hpl : ∀ c ∈ pl, c ≠ '<')
    (hnm : ∀ c ∈ nm, c ≠ '>' ∧ c ≠ '\n') (rest : List Char) :
    rabAux (pl ++ ('<' :: (nm ++ ('>' :: rest)))) none =
      pl ++ ('`' :: (nm ++ ('`' :: rabAux rest none))) := by
  rw [rabAux_plain pl hpl ('<' :: (nm ++ ('>' :: rest)))]
  have hopen : rabAux ('<' :: (nm ++ ('>' :: rest))) none =
      rabAux (nm ++ ('>' :: rest)) (some []) := by
    simp [rabAux]
  rw [hopen, rabAux_pending nm hnm [] rest]
  simp

theorem c7_core (last : String) (hlast : bracketFree last) :
    ∀ segs : List (String × String), (∀ p ∈ segs, bracketFree p.1) →
      (∀ p ∈ segs, nameOk p.2) →
      rabAux (assemble segs last).data none = (assembleTicked segs last).data := by
  intro segs
  induction segs with
  | nil =>
    intro _ _
    show rabAux last.data none = last.data
    have h0 : rabAux ([] : List Char) none = [] := rfl
    have hp := rabAux_plain last.data (fun c hc => (hlast c hc).1) []
    simp only [h0, List.append_nil] at hp
    exact hp
  | cons hd tl ih =>
    intro hpl hnm
    obtain ⟨pl, nm⟩ := hd
    have hd1 : (assemble ((pl, nm) :: tl) last).data =
        pl.data ++ ('<' :: (nm.data ++ ('>' :: (assemble tl last).data))) := by
      show (pl ++ "<" ++ nm ++ ">" ++ assemble tl last).data = _
      simp [String.data_append]
    have hd2 : (assembleTicked ((pl, nm) :: tl) last).data =
        pl.data ++ ('`' :: (nm.data ++ ('`' :: (assembleTicked tl last).data))) := by
      show (pl ++ "`" ++ nm ++ "`" ++ assembleTicked tl last).data = _
      simp [String.data_append]
    rw [hd1, hd2]
    have hplhd : ∀ c ∈ pl.data, c ≠ '<' :=
      fun c hc => (hpl (pl, nm) (List.mem_cons_self _ _) c hc).1
    have hnmhd : ∀ c ∈ nm.data, c ≠ '>' ∧ c ≠ '\n' :=
      fun c hc => ⟨(hnm (pl, nm) (List.mem_cons_self _ _) c hc).2.1,
        (hnm (pl, nm) (List.mem_cons_self _ _) c hc).2.2⟩
    rw [rab_once pl.data nm.data hplhd hnmhd]
    rw [ih (fun p hp => hpl p (List.mem_cons_of_mem _ hp))
      (fun p hp => hnm p (List.mem_cons_of_mem _ hp))]

/-- C7, amended.  For a description text whose angle brackets occur only as
properly paired, non-nested placeholders `<name>` on one line (plain
segments bracket-free, names free of brackets and newlines), the extracted
description is the text with every placeholder rewritten to backtick form;
it contains each `` `name` `` and contains no angle-bracket character.
(`c7_counterexample` shows both conclusions fail for nested brackets.) -/
theorem c7_amended (segs : List (String × String)) (last : String)
    (hpl : ∀ p ∈ segs, bracketFree p.1) (hlast : bracketFree last)
    (hnm : ∀ p ∈ segs, nameOk p.2) :
    replace_angle_brackets (assemble segs last) = assembleTicked segs last ∧
    (∀ p ∈ segs, ∃ pre post,
      replace_angle_brackets (assemble segs last) = pre ++ ("`" ++ p.2 ++ "`") ++ post) ∧
    (∀ c ∈ (replace_angle_brackets (assemble segs last)).data, c ≠ '<' ∧ c ≠ '>') := by
  have hmain : replace_angle_brackets (assemble segs last) = assembleTicked segs last := by
    show (rabAux (assemble segs last).data none).asString = _
    rw [c7_core last hlast segs hpl hnm]
    exact String.asString_toList _
  refine ⟨hmain, ?_, ?_⟩
  · rw [hmain]
    clear hmain
    induction segs with
    | nil => intro p hp; cases hp
    | cons hd tl ih =>
      intro p hp
      obtain ⟨pl, nm⟩ := hd
      rcases List.mem_cons.mp hp with rfl | hp
      · refine ⟨pl, assembleTicked tl last, ?_⟩
        show pl ++ "`" ++ nm ++ "`" ++ assembleTicked tl last = _
        simp [String.append_assoc]
      · obtain ⟨pre, post, hpre⟩ := ih (fun q hq => hpl q (List.mem_cons_of_mem _ hq))
          (fun q hq => hnm q (List.mem_cons_of_mem _ hq)) p hp
        refine ⟨pl ++ "`" ++ nm ++ "`" ++ pre, post, ?_⟩
        show pl ++ "`" ++ nm ++ "`" ++ assembleTicked tl last = _
        rw [hpre]
        simp [String.append_assoc]
  · rw [hmain]
    clear hmain
    induction segs with
    | nil => exact hlast
    | cons hd tl ih =>
      intro c hc
      obtain ⟨pl, nm⟩ := hd
      have hdata : (assembleTicked ((pl, nm) :: tl) last).data =
          pl.data ++ ('`' :: (nm.data ++ ('`' :: (assembleTicked tl last).data))) := by
        show (pl ++ "`" ++ nm ++ "`" ++ assembleTicked tl last).data = _
        simp [String.data_append]
      rw [hdata] at hc
      rcases List.mem_append.mp hc with hc | hc
      · exact hpl (pl, nm) (List.mem_cons_self _ _) c hc
      · rcases List.mem_cons.mp hc with rfl | hc
        · exact ⟨by decide, by decide⟩
        · rcases List.mem_append.mp hc with hc | hc
          · have hcc := hnm (pl, nm) (List.mem_cons_self _ _) c hc
            exact ⟨hcc.1, hcc.2.1⟩
          · rcases List.mem_cons.mp hc with rfl | hc
            · exact ⟨by decide, by decide⟩
            · exact ih (fun q hq => hpl q (List.mem_cons_of_mem _ hq))
                (fun q hq => hnm q (List.mem_cons_of_mem _ hq)) c hc

theorem c7_amended_witness :
    (∀ p ∈ [("see ", "x")], bracketFree p.1) ∧ bracketFree " here" ∧
    (∀ p ∈ [("see ", "x")], nameOk p.2) ∧
    (replace_angle_brackets (assemble [("see ", "x")] " here") =
      assembleTicked [("see ", "x")] " here" ∧
    (∀ p ∈ [("see ", "x")], ∃ pre post,
      replace_angle_brackets (assemble [("see ", "x")] " here") =
        pre ++ ("`" ++ p.2 ++ "`") ++ post) ∧
    (∀ c ∈ (replace_angle_brackets (assemble [("see ", "x")] " here")).data,
      c ≠ '<' ∧ c ≠ '>')) :=
  ⟨by decide, by decide, by decide,
   c7_amended [("see ", "x")] " here" (by decide) (by decide) (by decide)⟩

/-- C7, counterexample.  The text `<a<b>` contains the placeholder `<b>`,
yet the non-greedy substitution rewrites the whole span `<a<b>` to
`` `a<b` ``: the extracted description still contains a literal `<`. -/
theorem c7_counterexample :
    ("<a<b>" : String) = "<a" ++ "<" ++ "b" ++ ">" ++ "" ∧
    replace_angle_brackets "<a<b>" = "`a<b`" ∧
    '<' ∈ (replace_angle_brackets "<a<b>").data := by
  refine ⟨by decide, rfl, by decide⟩

/-! ## C10 amended — name-only line ending the block -/

theorem takeWhile_app_of_all (p : Char → Bool) :
    ∀ (a b : List Char), (∀ c ∈ a, p c = true) →
      (a ++ b).takeWhile p = a ++ b.takeWhile p := by
  intro a
  induction a with
  | nil => intro b _; rfl
  | cons c tl ih =>
    intro b h
    simp only [List.cons_append, List.takeWhile_cons, h c (List.mem_cons_self _ _)]
    simp [ih b (fun x hx => h x (List.mem_cons_of_mem _ hx))]

theorem dropWhile_app_of_all (p : Char → Bool) :
    ∀ (a b : List Char), (∀ c ∈ a, p c = true) →
      (a ++ b).dropWhile p = b.dropWhile p := by
  intro a
  induction a with
  | nil => intro b _; rfl
  | cons c tl ih =>
    intro b h
    simp only [List.cons_append, List.dropWhile_cons, h c (List.mem_cons_self _ _)]
    exact ih b (fun x hx => h x (List.mem_cons_of_mem _ hx))

theorem subLineMatch_wsname (ws nm : List Char) (hws : ∀ c ∈ ws, isWs c = true)
    (hnm : ∀ c ∈ nm, isWs c = false) : subLineMatch (ws ++ nm) = none := by
  have hnmtw : nm.takeWhile isWs = [] := by
    cases nm with
    | nil => rfl
    | cons c tl => simp [List.takeWhile_cons, hnm c (List.mem_cons_self _ _)]
  have hnmdw : nm.dropWhile isWs = nm := by
    cases nm with
    | nil => rfl
    | cons c tl => simp [List.dropWhile_cons, hnm c (List.mem_cons_self _ _)]
  have hnm2tw : nm.takeWhile (fun c => !isWs c) = nm := by
    have h := takeWhile_app_of_all (fun c => !isWs c) nm []
      (fun c hc => by simp [hnm c hc])
    simpa using h
  have hnm2dw : nm.dropWhile (fun c => !isWs c) = [] := by
    have h := dropWhile_app_of_all (fun c => !isWs c) nm []
      (fun c hc => by simp [hnm c hc])
    simpa using h
  have htw : (ws ++ nm).takeWhile isWs = ws :=
    (takeWhile_app_of_all isWs ws nm hws).trans (by rw [hnmtw, List.append_nil])
  have hdw : (ws ++ nm).dropWhile isWs = nm :=
    (dropWhile_app_of_all isWs ws nm hws).trans hnmdw
  unfold subLineMatch
  rw [htw, hdw, hnm2tw, hnm2dw]
  cases ws with
  | nil => simp
  | cons w wtl =>
    cases nm with
    | nil => simp
    | cons c tl => simp

theorem skipLine_shape (nm : List Char) (hnm : ∀ c ∈ nm, isWs c = false) :
    ∀ ws, (∀ c ∈ ws, isWs c = true) →
      skipLine (ws ++ nm) = [] ∨
        ∃ ws', skipLine (ws ++ nm) = ws' ++ nm ∧ ∀ c ∈ ws', isWs c = true := by
  intro ws
  induction ws with
  | nil =>
    intro _
    left
    show skipLine nm = []
    unfold skipLine
    have h : nm.dropWhile (fun c => c ≠ '\n') = [] := by
      rw [List.dropWhile_eq_nil_iff]
      intro c hc
      have hf := hnm c hc
      simp only [decide_eq_true_eq]
      intro he
      subst he
      simp [isWs] at hf
    rw [h]
    rfl
  | cons w wtl ih =>
    intro hws
    by_cases hw : w = '\n'
    · right
      refine ⟨wtl, ?_, fun c hc => hws c (List.mem_cons_of_mem _ hc)⟩
      subst hw
      show skipLine ('\n' :: (wtl ++ nm)) = wtl ++ nm
      unfold skipLine
      simp [List.dropWhile_cons]
    · have hstep : skipLine ((w :: wtl) ++ nm) = skipLine (wtl ++ nm) := by
        unfold skipLine
        simp [List.dropWhile_cons, hw]
      rw [hstep]
      exact ih (fun c hc => hws c (List.mem_cons_of_mem _ hc))

theorem scanSubPairsF_wsname : ∀ (fuel : Nat) (ws nm : List Char),
    (∀ c ∈ ws, isWs c = true) → (∀ c ∈ nm, isWs c = false) →
    scanSubPairsF fuel (ws ++ nm) = [] := by
  intro fuel
  induction fuel with
  | zero =>
    intro ws nm _ _
    rcases hcs : ws ++ nm with _ | ⟨c, r⟩ <;> rfl
  | succ n ih =>
    intro ws nm hws hnm
    have hm : subLineMatch (ws ++ nm) = none := subLineMatch_wsname ws nm hws hnm
    cases hcs : ws ++ nm with
    | nil => rfl
    | cons c rest =>
      rw [hcs] at hm
      show scanSubPairsF (n + 1) (c :: rest) = []
      simp only [scanSubPairsF, hm]
      rw [← hcs]
      rcases skipLine_shape nm hnm ws hws with h | ⟨ws', heq, hws'⟩
      · rw [h]
        cases n <;> rfl
      · rw [heq]
        exact ih ws' nm hws' hnm

/-- C10, amended.  A commands-block line of only indentation and a single
token produces no subcommand entry and no probe exactly when the token ends
the captured block with no whitespace after it: when the whole block is
indentation followed by a whitespace-free token, the extracted subcommand
list is empty, the built node has no subcommands, and only the root path is
probed.  (When a newline follows the token inside the block the pattern's
`\s+` matches across it and the token IS recognized — `c10_counterexample`.) -/
theorem c10_amended (probe : List String → Option String) (tool o : String)
    (ws nm : List Char) (fuel : Nat)
    (h1 : probe [tool, "--help"] = some o) (h2 : pstrip o ≠ "")
    (h3 : subcommandsBlock o = some (ws ++ nm))
    (hws : ∀ c ∈ ws, isWs c = true) (hnm : ∀ c ∈ nm, isWs c = false) :
    ∃ node st, get_command_structure probe tool (fuel + 1) [] ⟨[], []⟩ = (some node, st) ∧
      CommandNode.subcommands node = [] ∧ BuildSt.log st = [[tool]] := by
  have hsl : subLines o = [] := by
    unfold subLines
    rw [h3]
    exact scanSubPairsF_wsname _ ws nm hws hnm
  refine ⟨CommandNode.mk (extractDescription o) (extractFlags o) [],
    ⟨aset [] (commandKey tool [])
      (CommandNode.mk (extractDescription o) (extractFlags o) []), [[tool]]⟩,
    ?_, rfl, rfl⟩
  show getCSStep probe tool (get_command_structure probe tool fuel) [] ⟨[], []⟩ = _
  unfold getCSStep
  show (match probe [tool, "--help"] with
    | none => _
    | some output => _) = _
  rw [h1]
  simp only [if_neg h2]
  rw [hsl]
  rfl

/-- A fixture whose commands block is exactly `  solo` with no trailing
whitespace (the block is cut off by the end of the output). -/
def soloEndProbe : List String → Option String := fun args =>
  if args = ["t", "--help"] then some "Usage: t\nCommands:\n  solo" else none

theorem c10_amended_witness :
    ∃ node st,
      get_command_structure soloEndProbe "t" (9 + 1) [] ⟨[], []⟩ = (some node, st) ∧
      CommandNode.subcommands node = [] ∧ BuildSt.log st = [["t"]] :=
  c10_amended soloEndProbe "t" "Usage: t\nCommands:\n  solo" "  ".data "solo".data 9
    rfl (by decide) (by decide) (by decide) (by decide)

/-! ## C9 — rendered section layout -/

/-- C9.  In the rendered document, every non-root command at path depth `d`
opens with its anchor tag immediately followed by a heading of level
`min(d + 1, 6)` (the hash marks of `headingFor`); the root — empty command
path — emits no heading and no usage line, only its subcommands' sections
concatenated in lexicographic key order. -/
theorem c9_section_layout (tool : String) (node : CommandNode) (chain : List String) :
    (chain ≠ [] → ∃ rest, writeSection tool node chain =
        anchorTag tool chain ++ (headingFor tool chain ++ rest)) ∧
    writeSection tool node [] =
      String.join ((List.insertionSort byKeyLe node.subcommands).map
        (fun p => writeSection tool p.2 [p.1])) := by
  obtain ⟨d, f, subs⟩ := node
  constructor
  · intro hne
    rw [writeSection]
    rw [if_neg (by simpa using hne)]
    refine ⟨(if d = "" then "" else d ++ "\n\n") ++ usageFor tool chain ++
      subIndexFor tool chain (List.insertionSort byKeyLe subs) ++
      (if f.isEmpty then "" else flagsTable f) ++
      String.join ((List.insertionSort byKeyLe subs).attach.map
        (fun p => writeSection tool p.1.2 (chain ++ [p.1.1]))), ?_⟩
    simp [String.append_assoc]
  · rw [writeSection]
    simp only [List.isEmpty_nil, if_true, CommandNode.subcommands]
    exact congrArg String.join
      (List.attach_map_val (List.insertionSort byKeyLe subs)
        (fun q => writeSection tool q.2 [q.1]))

theorem c9_section_layout_witness :
    ∃ rest, writeSection "t" (CommandNode.mk "d" [] []) ["x"] =
      anchorTag "t" ["x"] ++ (headingFor "t" ["x"] ++ rest) :=
  (c9_section_layout "t" (CommandNode.mk "d" [] []) ["x"]).1 (by decide)

/-! ## C6 — listing-order independence -/

theorem sortedDedup_perm_eq {l1 l2 : List (String × String)} (h : l1.Perm l2) :
    sortedDedup l1 = sortedDedup l2 := by
  apply List.eq_of_perm_of_sorted (r := pairLe)
  · exact (List.perm_insertionSort pairLe l1.dedup).trans
      (h.dedup.trans (List.perm_insertionSort pairLe l2.dedup).symm)
  · exact List.sorted_insertionSort pairLe l1.dedup
  · exact List.sorted_insertionSort pairLe l2.dedup

/-- Two probes that fail on the same arguments and whose outputs agree on
emptiness, extracted description and flags, with subcommand listings equal
up to order. -/
def ProbeSim (p1 p2 : List String → Option String) : Prop :=
  ∀ args, (p1 args = none ∧ p2 args = none) ∨
    ∃ o1 o2, p1 args = some o1 ∧ p2 args = some o2 ∧
      (pstrip o1 = "" ↔ pstrip o2 = "") ∧
      extractDescription o1 = extractDescription o2 ∧
      extractFlags o1 = extractFlags o2 ∧
      (subLines o1).Perm (subLines o2)

theorem processSubs_congr (tool : String) (chain : List String)
    (c1 c2 : String → BuildSt → Option CommandNode × BuildSt)
    (hc : ∀ name st, c1 name st = c2 name st) :
    ∀ l acc, processSubs c1 tool chain l acc = processSubs c2 tool chain l acc := by
  intro l
  induction l with
  | nil => intro acc; rfl
  | cons hd tl ih =>
    intro acc
    obtain ⟨name, desc⟩ := hd
    obtain ⟨subs, st⟩ := acc
    simp only [processSubs, hc name st]
    cases hrs : c2 name st with
    | mk ro st' =>
      cases ro with
      | none => exact ih _
      | some sub =>
        by_cases hde : sub.description = ""
        · simp only [if_pos hde]; exact ih _
        · simp only [if_neg hde]; exact ih _

theorem getCS_probeSim (p1 p2 : List String → Option String) (tool : String)
    (h : ProbeSim p1 p2) :
    ∀ fuel chain st,
      get_command_structure p1 tool fuel chain st =
        get_command_structure p2 tool fuel chain st := by
  intro fuel
  induction fuel with
  | zero => intro chain st; rfl
  | succ n ih =>
    intro chain st
    rw [getCS_succ, getCS_succ]
    unfold getCSStep
    cases hm : alookup st.memo (commandKey tool chain) with
    | some node => rfl
    | none =>
      rcases h (tool :: chain ++ ["--help"]) with ⟨e1, e2⟩ |
        ⟨o1, o2, e1, e2, hemp, hdesc, hflags, hsub⟩
      · rw [e1, e2]
      · rw [e1, e2]
        dsimp only
        by_cases hb : pstrip o1 = ""
        · rw [if_pos hb, if_pos (hemp.mp hb)]
        · rw [if_neg hb, if_neg (fun hx => hb (hemp.mpr hx))]
          have hps : processSubs (fun name stx =>
              get_command_structure p1 tool n (chain ++ [name]) stx) tool chain
              (sortedDedup (subLines o1))
              ([], { st with log := st.log ++ [tool :: chain] }) =
            processSubs (fun name stx =>
              get_command_structure p2 tool n (chain ++ [name]) stx) tool chain
              (sortedDedup (subLines o2))
              ([], { st with log := st.log ++ [tool :: chain] }) := by
            rw [sortedDedup_perm_eq hsub]
            exact processSubs_congr tool chain _ _
              (fun name stx => ih (chain ++ [name]) stx) _ _
          simp only [hdesc, hflags, hps]

/-- C6.  Building from the same deterministic fixture is independent of the
listing order of subcommand lines in the raw text: two probes whose outputs
agree field-for-field except that their subcommand listings are permutations
of each other produce structurally identical trees (and identical build
states), because listings are deduplicated and sorted before iteration. -/
theorem c6_order_independent (p1 p2 : List String → Option String) (tool : String)
    (maxDepth : Nat) (h : ProbeSim p1 p2) :
    build p1 tool maxDepth = build p2 tool maxDepth :=
  getCS_probeSim p1 p2 tool h (maxDepth + 1) [] ⟨[], []⟩

/-- Fixture pair for C6: identical help texts except the two subcommand
listing lines are swapped. -/
def permProbe1 : List String → Option String := fun args =>
  if args = ["t", "--help"] then some "D\nUsage: t\n\nCommands:\n  a  x\n  b  y\n\nEnd\n"
  else none

def permProbe2 : List String → Option String := fun args =>
  if args = ["t", "--help"] then some "D\nUsage: t\n\nCommands:\n  b  y\n  a  x\n\nEnd\n"
  else none

/-! ## C1 amended — at-most-once probing when all probes succeed -/

/-- `p` is a (possibly improper) leading segment of the command path `q`. -/
def leadsTo (p q : List String) : Prop := ∃ r, p ++ r = q

/-- The memo key of a full command path. -/
def keyOf (p : List String) : String := joinSep " " p

/-- The memo table has an entry for this key. -/
def memoHas (memo : List (String × CommandNode)) (k : String) : Prop :=
  alookup memo k ≠ none

theorem leadsTo_refl (p : List String) : leadsTo p p := ⟨[], List.append_nil p⟩

theorem leadsTo_length {p q : List String} (h : leadsTo p q) : p.length ≤ q.length := by
  obtain ⟨r, hr⟩ := h
  rw [← hr, List.length_append]
  omega

theorem leadsTo_snoc {p q : List String} (x : String) (h : leadsTo p q) :
    leadsTo p (q ++ [x]) := by
  obtain ⟨r, hr⟩ := h
  exact ⟨r ++ [x], by rw [← List.append_assoc, hr]⟩

theorem leadsTo_unsnoc {p q : List String} {x : String}
    (h : leadsTo p (q ++ [x])) (hne : p ≠ q ++ [x]) : leadsTo p q := by
  obtain ⟨r, hr⟩ := h
  cases r with
  | nil =>
    rw [List.append_nil] at hr
    exact absurd hr hne
  | cons y rr =>
    have hlen : p.length ≤ q.length := by
      have := congrArg List.length hr
      simp [List.length_append] at this
      omega
    have htake1 : (p ++ (y :: rr)).take p.length = p := List.take_left p (y :: rr)
    have htake2 : (q ++ [x]).take p.length = q.take p.length :=
      List.take_append_of_le_length hlen
    rw [hr, htake2] at htake1
    refine ⟨q.drop p.length, ?_⟩
    nth_rewrite 1 [← htake1]
    exact List.take_append_drop _ _

theorem memoHas_aset {memo : List (String × CommandNode)} {k k' : String}
    {v : CommandNode} (h : memoHas memo k') : memoHas (aset memo k v) k' := by
  induction memo with
  | nil =>
    simp only [memoHas, alookup] at h
    by_cases he : k = k'
    · subst he
      simp [memoHas, aset, alookup]
    · exact absurd rfl h
  | cons hd tl ih =>
    obtain ⟨k0, v0⟩ := hd
    simp only [memoHas, aset, alookup] at h ⊢
    by_cases h0 : k0 = k
    · rw [if_pos h0]
      by_cases h1 : k0 = k'
      · simp [alookup, h1]
      · simp only [alookup, h1, if_neg] at h ⊢
        exact h
    · rw [if_neg h0]
      by_cases h1 : k0 = k'
      · simp [alookup, h1]
      · simp only [alookup, h1, if_neg] at h ⊢
        exact ih h

theorem memoHas_aset_self (memo : List (String × CommandNode)) (k : String)
    (v : CommandNode) : memoHas (aset memo k v) k := by
  induction memo with
  | nil => simp [memoHas, aset, alookup]
  | cons hd tl ih =>
    obtain ⟨k0, v0⟩ := hd
    by_cases h0 : k0 = k
    · simp [memoHas, aset, alookup, h0]
    · simp only [memoHas, aset, alookup, if_neg h0]
      exact ih

/-- Invariant at entry/exit of `get_command_structure` for path
`full = tool :: chain`: the probe log has no duplicates, and every logged
path is either memoized or a strictly shorter leading segment of `full`
(the chain of in-flight ancestor calls). -/
def StInv (full : List String) (st : BuildSt) : Prop :=
  st.log.Nodup ∧
  ∀ p ∈ st.log, memoHas st.memo (keyOf p) ∨ (leadsTo p full ∧ p ≠ full)

/-- Invariant inside the subcommand loop of the call for `full`: `full`
itself has been probed and logged but is not yet memoized. -/
def LoopInv (full : List String) (st : BuildSt) : Prop :=
  st.log.Nodup ∧
  ∀ p ∈ st.log, memoHas st.memo (keyOf p) ∨ leadsTo p full

theorem processSubs_loopInv (tool : String) (chain : List String)
    (child : String → BuildSt → Option CommandNode × BuildSt)
    (hc : ∀ name st, StInv ((tool :: chain) ++ [name]) st →
        StInv ((tool :: chain) ++ [name]) (child name st).2) :
    ∀ (l : List (String × String)) (subs : List (String × CommandNode)) (st : BuildSt),
      LoopInv (tool :: chain) st →
      LoopInv (tool :: chain) (processSubs child tool chain l (subs, st)).2 := by
  intro l
  induction l with
  | nil => intro subs st h; exact h
  | cons hd tl ih =>
    intro subs st h
    obtain ⟨name, desc⟩ := hd
    have hpre : StInv ((tool :: chain) ++ [name]) st := by
      refine ⟨h.1, fun p hp => ?_⟩
      rcases h.2 p hp with hm | hl
      · exact Or.inl hm
      · refine Or.inr ⟨leadsTo_snoc name hl, ?_⟩
        intro he
        have hlen := leadsTo_length hl
        rw [he] at hlen
        simp [List.length_append] at hlen
    have hloop : LoopInv (tool :: chain) (child name st).2 := by
      have hpost := hc name st hpre
      refine ⟨hpost.1, fun p hp => ?_⟩
      rcases hpost.2 p hp with hm | ⟨hl, hne⟩
      · exact Or.inl hm
      · exact Or.inr (leadsTo_unsnoc hl hne)
    cases hres : child name st with
    | mk ro st' =>
      rw [hres] at hloop
      cases ro with
      | none =>
        simp only [processSubs, hres]
        exact ih _ _ hloop
      | some sub =>
        simp only [processSubs, hres]
        by_cases hde : sub.description = ""
        · simp only [if_pos hde]
          apply ih
          exact ⟨hloop.1, fun p hp => (hloop.2 p hp).imp (fun hm => memoHas_aset hm) id⟩
        · simp only [if_neg hde]
          exact ih _ _ hloop

theorem getCS_StInv (probe : List String → Option String) (tool : String)
    (hp : ∀ args, ∃ o, probe args = some o ∧ pstrip o ≠ "") :
    ∀ fuel chain st, StInv (tool :: chain) st →
      StInv (tool :: chain) (get_command_structure probe tool fuel chain st).2 := by
  intro fuel
  induction fuel with
  | zero =>
    intro chain st h
    show StInv _ (getCSBase tool chain st).2
    unfold getCSBase
    cases alookup st.memo (commandKey tool chain) <;> exact h
  | succ n ih =>
    intro chain st h
    rw [getCS_succ]
    unfold getCSStep
    cases hm : alookup st.memo (commandKey tool chain) with
    | some node => exact h
    | none =>
      obtain ⟨o, ho, hne⟩ := hp (tool :: chain ++ ["--help"])
      rw [ho]
      dsimp only
      rw [if_neg hne]
      have hfullnotin : (tool :: chain) ∉ st.log := by
        intro hin
        rcases h.2 _ hin with hmm | ⟨_, hne2⟩
        · exact hmm hm
        · exact hne2 rfl
      have hst1 : LoopInv (tool :: chain) ⟨st.memo, st.log ++ [tool :: chain]⟩ := by
        constructor
        · refine List.nodup_append.mpr ⟨h.1, List.nodup_singleton _, ?_⟩
          intro a ha hb
          rw [List.mem_singleton] at hb
          subst hb
          exact hfullnotin ha
        · intro p hp2
          rcases List.mem_append.mp hp2 with hp2 | hp2
          · rcases h.2 p hp2 with hmm | ⟨hl, _⟩
            · exact Or.inl hmm
            · exact Or.inr hl
          · rw [List.mem_singleton] at hp2
            subst hp2
            exact Or.inr (leadsTo_refl _)
      have hloop := processSubs_loopInv tool chain
        (fun name stx => get_command_structure probe tool n (chain ++ [name]) stx)
        (fun name st0 h0 => ih (chain ++ [name]) st0 h0)
        (sortedDedup (subLines o)) [] ⟨st.memo, st.log ++ [tool :: chain]⟩ hst1
      refine ⟨hloop.1, fun p hp2 => ?_⟩
      rcases hloop.2 p hp2 with hmm | hl
      · exact Or.inl (memoHas_aset hmm)
      · by_cases hpe : p = tool :: chain
        · subst hpe
          exact Or.inl (memoHas_aset_self _ _ _)
        · exact Or.inr ⟨hl, hpe⟩

/-- C1, amended.  When every probe returns usable output (so every probed
path is memoized by the end of its own call), the Prober is executed at most
once per command path in one build, even across duplicate or differing
subcommand listings; a re-entry for an already-built path returns the cached
node without probing.  (Without the success hypothesis this fails:
`c1_counterexample` re-probes a failed path.) -/
theorem count_le_one_of_nodup :
    ∀ {l : List (List String)}, l.Nodup → ∀ p, l.count p ≤ 1 := by
  intro l
  induction l with
  | nil => intro _ p; simp
  | cons x tl ih =>
    intro h p
    rcases List.nodup_cons.mp h with ⟨hx, htl⟩
    rw [List.count_cons]
    by_cases he : p = x
    · subst he
      have hz : tl.count p = 0 := List.count_eq_zero_of_not_mem hx
      simp [hz]
    · have hb : ¬ (x == p) = true := by
        simp only [beq_iff_eq]
        exact fun hh => he hh.symm
      rw [if_neg hb]
      have := ih htl p
      omega

theorem c1_amended (probe : List String → Option String) (tool : String) (maxDepth : Nat)
    (hp : ∀ args, ∃ o, probe args = some o ∧ pstrip o ≠ "") :
    ∀ p, ((build probe tool maxDepth).2.log).count p ≤ 1 := by
  have h := getCS_StInv probe tool hp (maxDepth + 1) [] ⟨[], []⟩
    ⟨List.nodup_nil, by intro p hp2; cases hp2⟩
  exact count_le_one_of_nodup h.1

theorem c1_amended_witness :
    (∀ args : List String, ∃ o, (fun _ : List String => some "x") args = some o ∧
      pstrip o ≠ "") ∧
    ((build (fun _ => some "x") "w" 2).2.log).count ["w"] ≤ 1 :=
  ⟨fun _ => ⟨"x", rfl, by decide⟩,
   c1_amended (fun _ => some "x") "w" 2 (fun _ => ⟨"x", rfl, by decide⟩) ["w"]⟩

theorem c6_order_independent_witness :
    ProbeSim permProbe1 permProbe2 ∧ build permProbe1 "t" 5 = build permProbe2 "t" 5 := by
  have hs : ProbeSim permProbe1 permProbe2 := by
    intro args
    by_cases ha : args = ["t", "--help"]
    · subst ha
      right
      exact ⟨_, _, rfl, rfl, by decide, by decide, by decide, by decide⟩
    · left
      constructor <;> simp [permProbe1, permProbe2, ha]
  exact ⟨hs, c6_order_independent _ _ _ _ hs⟩

end CliScraper
